import Mathlib

/-!
Verification of the validator health manager and heartbeat canonicalization
of `consensus/tbft/types/heartbeat.go`.

The Go code is shallowly embedded: the `HealthMgr` struct becomes a record of
lists, the mutation of `Health` records through shared pointers becomes the
functional rebuilding of those lists, the `int32` tick becomes `Int`
(its increments are one per second, so 32-bit wrap is unreachable on any
horizon considered here), and the background goroutine becomes an explicit
step relation.  The Go map `Work` (keyed by `p2p.ID`, i.e. the record's own
`ID` field) is embedded as a list of records; map-key uniqueness is carried
as a `Nodup` hypothesis where it matters and map iteration order is the list
order (which is universally quantified at the entry points, covering every
order Go may choose).
-/

namespace Heartbeats

/-- `p2p.ID` is a string. -/
abbrev PeerID := String

/-- Validator identity; only the address takes part in the code under study
(sorting of the backup pool). -/
structure Validator where
  Address : List Nat
  deriving DecidableEq, Repr

/-- The constants of `heartbeat.go`. -/
def HealthOut : Int := 60 * 10

def StateUnused : Nat := 0
def StateSwitching : Nat := 1
def StateUsed : Nat := 2
def StateRemoved : Nat := 3

/-- The `Health` record of `heartbeat.go`. -/
structure Health where
  ID : PeerID
  IP : String
  Port : Nat
  Tick : Int
  State : Nat
  Val : Validator
  deriving DecidableEq, Repr

/-- `SwitchValidator`.  `Remove` is always a live record in the code paths at
hand; `Add` is the result of `pickUnuseValidator` and can be `nil`, hence
`Option`.  `from = 0` is a locally originated request, `from = 1` a remote
outcome. -/
structure SwitchValidator where
  Remove : Health
  Add : Option Health
  Resion : String
  «from» : Nat
  deriving DecidableEq, Repr

/-- The manager state.  `healthTickSet` models `healthTick != nil`, the only
lifecycle observable the embedded operations consult.  The `Sum`, `Remove`
and channel fields of the Go struct are never read by the operations under
verification and are omitted. -/
structure HealthMgr where
  Work : List Health
  Back : List Health
  healthTickSet : Bool
  deriving DecidableEq, Repr

/-- `NewHealthMgr`: empty sets, ticker not yet created. -/
def NewHealthMgr : HealthMgr :=
  { Work := [], Back := [], healthTickSet := false }

/-- `bytes.Compare(a, b) == -1`: strict lexicographic order on raw bytes,
a proper prefix being smaller. -/
def bytesLt : List Nat → List Nat → Bool
  | [], [] => false
  | [], _ :: _ => true
  | _ :: _, [] => false
  | a :: as, b :: bs => if a < b then true else if b < a then false else bytesLt as bs

/-- `HealthsByAddress.Less`. -/
def healthLess (a b : Health) : Bool :=
  bytesLt a.Val.Address b.Val.Address

/-- The postcondition order of Go's `sort.Sort(HealthsByAddress(...))`:
element `i` never compares strictly greater than element `j` for `i < j`. -/
def healthLe (a b : Health) : Bool :=
  !(healthLess b a)

/-- `SetBackValidators`: unconditionally replaces the pool and re-sorts it by
validator address.  The Go function performs no lifecycle check and returns
no error.  `sort.Sort` is an unstable comparison sort; `mergeSort` realizes
one permutation satisfying its postcondition (for distinct addresses the
result is unique). -/
def SetBackValidators (h : HealthMgr) (hh : List Health) : HealthMgr :=
  { h with Back := hh.mergeSort healthLe }

/-- `OnStart`: creates the ticker on first call, otherwise does nothing;
always returns a nil error (modelled by returning only the state). -/
def OnStart (h : HealthMgr) : HealthMgr :=
  if h.healthTickSet then h else { h with healthTickSet := true }

/-- `pickUnuseValidator`: scan the pool front to back, mark the first
`Unused` record `Switching` and return it; `none` when there is none.
Returns the (possibly) updated pool alongside. -/
def pickUnuseValidator : List Health → Option Health × List Health
  | [] => (none, [])
  | v :: rest =>
    if v.State = StateUnused then
      (some { v with State := StateSwitching }, { v with State := StateSwitching } :: rest)
    else
      let pr := pickUnuseValidator rest
      (pr.1, v :: pr.2)

/-- Repeated application of `pickUnuseValidator` on the evolving pool,
collecting the picked records (fuel-bounded; `length` fuel exhausts every
`Unused` record). -/
def picksN : List Health → Nat → List Health
  | _, 0 => []
  | back, n + 1 =>
    match pickUnuseValidator back with
    | (none, _) => []
    | (some r, back2) => r :: picksN back2 n

/-- `checkSwitchValidator`: when the (already incremented) tick exceeds
`HealthOut` and the record is `Used`, pick a backup (possibly `nil`), emit a
`SwitchValidator{Remove: v, Add: back, Resion: "Switch", from: 0}` and move
the record to `Switching`.  Note the emission happens whether or not a
backup was found. -/
def checkSwitchValidator (v : Health) (back : List Health) :
    Health × List Health × List SwitchValidator :=
  if v.Tick > HealthOut ∧ v.State = StateUsed then
    let pr := pickUnuseValidator back
    ({ v with State := StateSwitching }, pr.2,
      [{ Remove := v, Add := pr.1, Resion := "Switch", «from» := 0 }])
  else
    (v, back, [])

/-- One iteration of the loop body of `work`: increment the tick of a `Used`
record, then run the switch check. -/
def workOne (v : Health) (back : List Health) :
    Health × List Health × List SwitchValidator :=
  let v1 := if v.State = StateUsed then { v with Tick := v.Tick + 1 } else v
  checkSwitchValidator v1 back

/-- The loop of `work` over the active records, threading the backup pool
(consumed by the picker) and collecting the emissions of this pass. -/
def workAux : List Health → List Health → List Health × List Health × List SwitchValidator
  | [], back => ([], back, [])
  | v :: rest, back =>
    let p1 := workOne v back
    let p2 := workAux rest p1.2.1
    (p1.1 :: p2.1, p2.2.1, p1.2.2 ++ p2.2.2)

/-- `work`: one tick of the health goroutine; returns the new state and the
`SwitchValidator` requests emitted during the pass. -/
def work (m : HealthMgr) : HealthMgr × List SwitchValidator :=
  let p := workAux m.Work m.Back
  ({ m with Work := p.1, Back := p.2.1 }, p.2.2)

/-- Body of `Update` for one record: on the record the map lookup finds,
load the tick and add its negation (an atomic reset to 0); nothing else, in
particular the record's state is never consulted. -/
def updFun (id : PeerID) (v : Health) : Health :=
  if v.ID = id then
    let val := v.Tick
    { v with Tick := v.Tick + (-val) }
  else v

/-- `Update`: reset the tick of the active record with this id, if any. -/
def Update (m : HealthMgr) (id : PeerID) : HealthMgr :=
  { m with Work := m.Work.map (updFun id) }

/-- The `for ... range h.Back` loop of the success branch of `switchResult`:
set the first record whose `ID` matches to `Used` and `break`. -/
def setFirstUsed : List Health → PeerID → List Health
  | [], _ => []
  | v :: rest, id =>
    if v.ID = id then { v with State := StateUsed } :: rest
    else v :: setFirstUsed rest id

/-- `switchResult`.  Only `from == 1` outcomes act.  On success
(`Resion == ""`) the active record keyed by `Remove.ID` (if any) is set to
`Removed` and the first pool record matching `Add.ID` is set to `Used`.  On
failure nothing is mutated (only a log line is produced).  Both branches
dereference `res.Add` (the success loop through `res.Add.ID`, the log line
through `res.Add.String()`); with a `nil` `Add` the goroutine panics, which
is modelled as `none`. -/
def switchResult (m : HealthMgr) (res : SwitchValidator) : Option HealthMgr :=
  if res.«from» = 1 then
    match res.Add with
    | none => none
    | some a =>
      if res.Resion = "" then
        some { m with
          Work := m.Work.map (fun v =>
            if v.ID = res.Remove.ID then { v with State := StateRemoved } else v),
          Back := setFirstUsed m.Back a.ID }
      else
        some m
  else
    some m

/-- The `Heartbeat` message.  `ValidatorAddress` and `Signature` are byte
strings; the unsigned machine integers are embedded as `Nat` (no arithmetic
is performed on them, so overflow is not in play). -/
structure Heartbeat where
  ValidatorAddress : List Nat
  ValidatorIndex : Nat
  Height : Nat
  Round : Nat
  Sequence : Nat
  Signature : List Nat
  deriving DecidableEq, Repr

/-- JSON string escaping of a quote (34) or backslash (92) byte; other bytes
pass through. -/
def escJSON : List Nat → List Nat
  | [] => []
  | b :: bs =>
    if b = 34 then 92 :: 34 :: escJSON bs
    else if b = 92 then 92 :: 92 :: escJSON bs
    else b :: escJSON bs

/-- Decimal digits of a natural number, as ASCII bytes. -/
def decimal (n : Nat) : List Nat :=
  if n = 0 then [48] else ((Nat.digits 10 n).reverse).map (fun d => 48 + d)

/-- Uppercase hexadecimal digit for a value below 16. -/
def hexDigit (n : Nat) : Nat :=
  if n < 10 then 48 + n else 55 + n

/-- Two hexadecimal digits of one byte. -/
def hexByte (b : Nat) : List Nat :=
  [hexDigit (b / 16), hexDigit (b % 16)]

/-- Hexadecimal rendering of a byte string. -/
def hexOf : List Nat → List Nat
  | [] => []
  | b :: bs => hexByte b ++ hexOf bs

/-- ASCII bytes of the fixed JSON skeleton pieces of the canonical heartbeat
(`{"chain_id":"`, `","type":"heartbeat","height":`, `,"round":`,
`,"sequence":`, `,"validator_address":"`, `","validator_index":` and the
closing brace). -/
def skA0 : List Nat := [123, 34, 99, 104, 97, 105, 110, 95, 105, 100, 34, 58, 34]

def skA1 : List Nat := [34, 44, 34, 116, 121, 112, 101, 34, 58, 34, 104, 101, 97, 114, 116, 98, 101, 97, 116, 34, 44, 34, 104, 101, 105, 103, 104, 116, 34, 58]

def skA2 : List Nat := [44, 34, 114, 111, 117, 110, 100, 34, 58]

def skA3 : List Nat := [44, 34, 115, 101, 113, 117, 101, 110, 99, 101, 34, 58]

def skA4 : List Nat := [44, 34, 118, 97, 108, 105, 100, 97, 116, 111, 114, 95, 97, 100, 100, 114, 101, 115, 115, 34, 58, 34]

def skA5 : List Nat := [34, 44, 34, 118, 97, 108, 105, 100, 97, 116, 111, 114, 95, 105, 110, 100, 101, 120, 34, 58]

def skA6 : List Nat := [125]

/-- Modelled from the spec: the module-scoped amino codec (`cdc`, declared
outside `src/`) serializes `CanonicalJSONHeartbeat` to the wire form of
spec §6 — fields in declaration order, numbers in decimal,
`validator_address` in hexadecimal, the chain id as an escaped JSON string.
`chainID` is the byte content of the Go string. -/
def canonicalHeartbeatJSON (chainID : List Nat) (hb : Heartbeat) : List Nat :=
  skA0 ++ (escJSON chainID ++ (skA1 ++ (decimal hb.Height ++ (skA2 ++ (decimal hb.Round ++
    (skA3 ++ (decimal hb.Sequence ++ (skA4 ++ (hexOf hb.ValidatorAddress ++
    (skA5 ++ (decimal hb.ValidatorIndex ++ skA6)))))))))))

/-- Modelled from the spec: `help.RlpHash` (the Keccak-256 of the RLP
encoding of the one-element list holding the JSON bytes) lives outside
`src/`.  RLP encoding of a single byte string is injective, and Keccak-256
is collision-free on the inputs at hand under the standard idealization that
the spec's P7 presupposes, so the composite is modelled as an injective map
of the serialized bytes — the identity. -/
def RlpHashModel (bs : List Nat) : List Nat := bs

/-- `SignBytes`: hash of the canonical serialization; the `Signature` field
is never read. -/
def SignBytes (hb : Heartbeat) (chainID : List Nat) : List Nat :=
  RlpHashModel (canonicalHeartbeatJSON chainID hb)

/-- Number of records in a given state. -/
def countState (s : Nat) (l : List Health) : Nat :=
  (l.filter (fun v => v.State == s)).length

/-- One transition of the health goroutine together with the requests it
emits: a ticker step, a liveness signal, or the application of a switch
outcome (any outcome, which over-approximates what the coordinator can
return). -/
inductive Step : HealthMgr → List SwitchValidator → HealthMgr → Prop
  | tick (m : HealthMgr) : Step m (work m).2 (work m).1
  | update (m : HealthMgr) (id : PeerID) : Step m [] (Update m id)
  | result (m : HealthMgr) (res : SwitchValidator) (m' : HealthMgr) :
      switchResult m res = some m' → Step m [] m'

/-- Reachability, accumulating the full emission history. -/
inductive Reaches : HealthMgr → List SwitchValidator → HealthMgr → Prop
  | refl (m : HealthMgr) : Reaches m [] m
  | step {m m' m'' : HealthMgr} {E E2 : List SwitchValidator} :
      Reaches m E m' → Step m' E2 m'' → Reaches m (E ++ E2) m''

/-- Number of emissions in a history that name a given id as the record to
remove. -/
def emCount (E : List SwitchValidator) (id : PeerID) : Nat :=
  (E.filter (fun sv => sv.Remove.ID == id)).length

/-- Inductive invariant of the step relation: active ids are distinct (the
Go map cannot hold duplicate keys), every id has been named by at most one
emission, and an id that has been named is no longer `Used`. -/
def EmInv (m : HealthMgr) (E : List SwitchValidator) : Prop :=
  (m.Work.map Health.ID).Nodup ∧
  ∀ id, emCount E id ≤ 1 ∧
    (1 ≤ emCount E id → ∀ v ∈ m.Work, v.ID = id → v.State ≠ StateUsed)

/-- Concrete fixtures used by the counterexamples and witnesses below. -/
def recA : Health := { ID := "a", IP := "", Port := 0, Tick := 600, State := StateUsed, Val := ⟨[1]⟩ }

def recC : Health := { ID := "c", IP := "", Port := 0, Tick := 601, State := StateSwitching, Val := ⟨[3]⟩ }

def recD : Health := { ID := "d", IP := "", Port := 0, Tick := 0, State := StateSwitching, Val := ⟨[4]⟩ }

def recE : Health := { ID := "e", IP := "", Port := 0, Tick := 0, State := StateUnused, Val := ⟨[5]⟩ }

def recF : Health := { ID := "f", IP := "", Port := 0, Tick := 0, State := StateUnused, Val := ⟨[6]⟩ }

def mgrA : HealthMgr := { Work := [recA], Back := [], healthTickSet := true }

def mgrCD : HealthMgr := { Work := [recC], Back := [recD], healthTickSet := true }

def svFailCD : SwitchValidator := { Remove := recC, Add := some recD, Resion := "rejected", «from» := 1 }

def svOkCD : SwitchValidator := { Remove := recC, Add := some recD, Resion := "", «from» := 1 }

end Heartbeats

namespace Heartbeats

/-! ### Order lemmas for `bytesLt` -/

theorem bytesLt_irrefl : ∀ a, bytesLt a a = false
  | [] => rfl
  | _ :: as => by simp [bytesLt, bytesLt_irrefl as]

theorem bytesLt_asymm : ∀ a b, bytesLt a b = true → bytesLt b a = false
  | [], bs => by cases bs <;> simp [bytesLt]
  | _ :: _, [] => by simp [bytesLt]
  | a :: as, b :: bs => by
    rcases Nat.lt_trichotomy a b with h | h | h
    · simp [bytesLt, h, Nat.not_lt_of_lt h]
    · subst h
      simp only [bytesLt, Nat.lt_irrefl, if_false]
      exact bytesLt_asymm as bs
    · simp [bytesLt, h, Nat.not_lt_of_lt h]

theorem bytesLt_trans : ∀ a b c, bytesLt a b = true → bytesLt b c = true → bytesLt a c = true
  | [], bs, cs => by cases bs <;> cases cs <;> simp [bytesLt]
  | _ :: _, [], cs => by cases cs <;> simp [bytesLt]
  | _ :: _, _ :: _, [] => by simp [bytesLt]
  | a :: as, b :: bs, c :: cs => by
    rcases Nat.lt_trichotomy a b with h1 | h1 | h1
    · rcases Nat.lt_trichotomy b c with h2 | h2 | h2
      · simp [bytesLt, show a < c by omega]
      · subst h2
        simp [bytesLt, h1]
      · simp [bytesLt, h2, Nat.not_lt_of_lt h2]
    · subst h1
      rcases Nat.lt_trichotomy a c with h2 | h2 | h2
      · simp [bytesLt, h2]
      · subst h2
        simp only [bytesLt, Nat.lt_irrefl, if_false]
        exact bytesLt_trans as bs cs
      · simp [bytesLt, h2, Nat.not_lt_of_lt h2]
    · simp [bytesLt, h1, Nat.not_lt_of_lt h1]

theorem bytesLt_total : ∀ a b, bytesLt a b = true ∨ bytesLt b a = true ∨ a = b
  | [], [] => by simp [bytesLt]
  | [], _ :: _ => by simp [bytesLt]
  | _ :: _, [] => by simp [bytesLt]
  | a :: as, b :: bs => by
    simp only [bytesLt]
    rcases Nat.lt_trichotomy a b with h | h | h
    · left; simp [h]
    · subst h
      rcases bytesLt_total as bs with h2 | h2 | h2
      · left; simpa using h2
      · right; left; simpa using h2
      · right; right; simp [h2]
    · right; left; simp [h, Nat.not_lt_of_lt h]

theorem healthLe_trans (a b c : Health) (h1 : healthLe a b = true) (h2 : healthLe b c = true) :
    healthLe a c = true := by
  simp only [healthLe, healthLess, Bool.not_eq_true'] at *
  by_contra h3
  simp only [Bool.not_eq_false] at h3
  rcases bytesLt_total b.Val.Address a.Val.Address with h4 | h4 | h4
  · simp [h4] at h1
  · have := bytesLt_trans _ _ _ h3 h4
    simp [this] at h2
  · rw [h4] at h2
    simp [h3] at h2

theorem healthLe_total (a b : Health) : healthLe a b || healthLe b a := by
  simp only [healthLe, healthLess, Bool.or_eq_true, Bool.not_eq_true']
  by_contra h
  push_neg at h
  simp only [Bool.not_eq_false] at h
  have := bytesLt_asymm _ _ h.1
  rw [this] at h
  exact absurd h.2 (by simp)

end Heartbeats

namespace Heartbeats

/-! ### Helper lemmas about the manager operations -/

theorem list_map_self {α : Type} {l : List α} {f : α → α} (h : ∀ v ∈ l, f v = v) :
    l.map f = l := by
  induction l with
  | nil => rfl
  | cons v rest ih => simp [h v (by simp), ih (fun x hx => h x (by simp [hx]))]

theorem updFun_id_eq (id : PeerID) (v : Health) (h : v.ID = id) :
    updFun id v = { v with Tick := 0 } := by
  simp [updFun, h]

theorem updFun_id_ne (id : PeerID) (v : Health) (h : v.ID ≠ id) :
    updFun id v = v := by
  simp [updFun, h]

theorem setFirstUsed_decomp :
    ∀ (pre : List Health) (w : Health) (post : List Health) (id : PeerID),
      (∀ u ∈ pre, u.ID ≠ id) → w.ID = id →
      setFirstUsed (pre ++ w :: post) id = pre ++ { w with State := StateUsed } :: post
  | [], w, post, id => by
    intro _ hw
    simp [setFirstUsed, hw]
  | u :: pre, w, post, id => by
    intro hpre hw
    have hu : u.ID ≠ id := hpre u (by simp)
    have ih := setFirstUsed_decomp pre w post id (fun x hx => hpre x (by simp [hx])) hw
    simp only [List.cons_append, setFirstUsed, if_neg hu]
    exact congrArg (List.cons u) ih

theorem find?_map_updFun_tick (id : PeerID) :
    ∀ (l : List Health) (w : Health),
      (l.map (updFun id)).find? (fun v => v.ID == id) = some w → w.Tick = 0
  | [], w => by simp
  | v :: rest, w => by
    by_cases h : v.ID = id
    · rw [List.map_cons, List.find?_cons_of_pos _ (by simp [updFun_id_eq id v h, h])]
      intro hw
      rw [updFun_id_eq id v h] at hw
      cases hw
      rfl
    · rw [List.map_cons, List.find?_cons_of_neg _ (by simp [updFun_id_ne id v h, h])]
      exact find?_map_updFun_tick id rest w

theorem find?_map_updFun_isSome (id : PeerID) :
    ∀ l : List Health,
      ((l.map (updFun id)).find? (fun v => v.ID == id)).isSome =
        (l.find? (fun v => v.ID == id)).isSome
  | [] => by simp
  | v :: rest => by
    by_cases h : v.ID = id
    · rw [List.map_cons, List.find?_cons_of_pos _ (by simp [updFun_id_eq id v h, h]),
        List.find?_cons_of_pos _ (by simp [h])]
      simp
    · rw [List.map_cons, List.find?_cons_of_neg _ (by simp [updFun_id_ne id v h, h]),
        List.find?_cons_of_neg _ (by simp [h])]
      exact find?_map_updFun_isSome id rest

/-! ### C1 -/

/-- C1: the claim states that when the threshold is crossed with no `Unused`
backup available, the record stays `Used` and nothing is emitted.  The code
does not skip: it emits a `SwitchValidator` whose `Add` is `nil` and moves
the record to `Switching` (its tick then stops accumulating, and a later
remote outcome for this request dereferences the nil `Add` and panics).
Evaluation of one tick at `Work = [recA]` (tick 600, `Used`), `Back = []`
exhibits the divergence. -/
theorem C1_emptyPool_tick_eval :
    work mgrA =
      ({ Work := [{ recA with Tick := 601, State := StateSwitching }],
         Back := [], healthTickSet := true },
       [{ Remove := { recA with Tick := 601 }, Add := none,
          Resion := "Switch", «from» := 0 }]) := by
  decide

/-! ### C2 -/

/-- C2 counterexample: at the concrete state `Work = [recC]` (Switching),
`Back = [recD]` (Switching), a Remote outcome with reason "rejected" leaves
the manager unchanged — the outgoing record stays `Switching` instead of
returning to `Used` and the candidate stays `Switching` instead of returning
to `Unused`. -/
theorem C2_failure_counterexample :
    switchResult mgrCD svFailCD = some mgrCD ∧
    mgrCD.Work.map Health.State = [StateSwitching] ∧
    mgrCD.Back.map Health.State = [StateSwitching] ∧
    StateSwitching ≠ StateUsed ∧ StateSwitching ≠ StateUnused := by
  decide

/-- C2 (amended): a Remote failure outcome (`from = 1`, non-nil `Add`,
non-empty reason) changes nothing at all: `switchResult` returns the state
unchanged (only a log line is produced).  In particular the remove record's
tick is unchanged, but neither record is rolled back to `Used`/`Unused`. -/
theorem C2_remoteFailure_noop (m : HealthMgr) (res : SwitchValidator)
    (h1 : res.«from» = 1) (h2 : res.Add.isSome) (h3 : res.Resion ≠ "") :
    switchResult m res = some m := by
  rcases ho : res.Add with _ | a
  · rw [ho] at h2
    simp at h2
  · simp [switchResult, h1, ho, h3]

theorem C2_remoteFailure_noop_witness :
    switchResult mgrCD svFailCD = some mgrCD :=
  C2_remoteFailure_noop mgrCD svFailCD rfl rfl (by decide)

/-! ### C3 (counterexample part) -/

/-- C3 counterexample: at the state the switch protocol actually reaches
(remove record already `Switching` since emission time, candidate
`Switching` since it was picked), a successful Remote outcome gains one
`Used` record but loses none: before the result the union of active set and
pool holds 0 `Used` records, afterwards 1.  The claim's "exactly one `Used`
record is lost (to `Removed`)" therefore fails. -/
theorem C3_success_counterexample :
    countState StateUsed (mgrCD.Work ++ mgrCD.Back) = 0 ∧
    switchResult mgrCD svOkCD =
      some { Work := [{ recC with State := StateRemoved }],
             Back := [{ recD with State := StateUsed }], healthTickSet := true } ∧
    countState StateUsed
      ([{ recC with State := StateRemoved }] ++ [{ recD with State := StateUsed }]) = 1 := by
  decide

/-! ### C4 -/

/-- C4 counterexample: `Update` on a record in state `Switching` resets its
tick from 601 to 0; the claim says tick and state are left unchanged for
`Switching`/`Removed` records. -/
theorem C4_update_switching_counterexample :
    (Update mgrCD "c").Work.map Health.Tick = [0] ∧
    mgrCD.Work.map Health.Tick = [601] ∧
    mgrCD.Work.map Health.State = [StateSwitching] := by
  decide

/-- C4 (amended): `Update` never consults the record's state: it zeroes the
tick of every active record matching the id regardless of state (including
`Switching` and `Removed`), and it changes no state field — so a switch
request already issued is indeed not retracted, but the tick is not left
unchanged. -/
theorem C4_update_state_blind (m : HealthMgr) (id : PeerID) :
    (Update m id).Work.map Health.State = m.Work.map Health.State ∧
    (Update m id).Work.map Health.ID = m.Work.map Health.ID ∧
    (∀ v ∈ m.Work, v.ID = id → { v with Tick := 0 } ∈ (Update m id).Work) ∧
    (∀ v ∈ m.Work, v.ID ≠ id → v ∈ (Update m id).Work) := by
  refine ⟨?_, ?_, ?_, ?_⟩
  · simp only [Update, List.map_map]
    refine List.map_congr_left fun v _ => ?_
    by_cases h : v.ID = id
    · simp [Function.comp, updFun_id_eq id v h]
    · simp [Function.comp, updFun_id_ne id v h]
  · simp only [Update, List.map_map]
    refine List.map_congr_left fun v _ => ?_
    by_cases h : v.ID = id
    · simp [Function.comp, updFun_id_eq id v h]
    · simp [Function.comp, updFun_id_ne id v h]
  · intro v hv h
    exact List.mem_map.2 ⟨v, hv, updFun_id_eq id v h⟩
  · intro v hv h
    exact List.mem_map.2 ⟨v, hv, updFun_id_ne id v h⟩

theorem C4_update_state_blind_witness :
    (Update mgrCD "c").Work.map Health.State = mgrCD.Work.map Health.State ∧
    { recC with Tick := 0 } ∈ (Update mgrCD "c").Work :=
  ⟨(C4_update_state_blind mgrCD "c").1,
   (C4_update_state_blind mgrCD "c").2.2.1 recC (by decide) (by decide)⟩

/-! ### C7 -/

/-- C7: `Update(id)` resets the tick of the active record with this id to 0
(the next read of that record's tick through the map observes 0), and is a
silent no-op when no active record has the id. -/
theorem C7_update_reset_and_noop (m : HealthMgr) (id : PeerID) :
    (∀ w, (Update m id).Work.find? (fun v => v.ID == id) = some w → w.Tick = 0) ∧
    ((∀ v ∈ m.Work, v.ID ≠ id) → Update m id = m) ∧
    ((Update m id).Work.find? (fun v => v.ID == id)).isSome =
      (m.Work.find? (fun v => v.ID == id)).isSome := by
  refine ⟨fun w => find?_map_updFun_tick id m.Work w, fun h => ?_,
    find?_map_updFun_isSome id m.Work⟩
  have hmap : m.Work.map (updFun id) = m.Work :=
    list_map_self fun v hv => updFun_id_ne id v (h v hv)
  cases m
  simp [Update, hmap]

theorem C7_update_reset_and_noop_witness :
    ((Update mgrCD "c").Work.find? (fun v => v.ID == "c")).map Health.Tick = some 0 ∧
    Update mgrCD "nope" = mgrCD := by
  have h1 := (C7_update_reset_and_noop mgrCD "c").1
  have h2 := (C7_update_reset_and_noop mgrCD "nope").2.1 (by decide)
  refine ⟨?_, h2⟩
  cases hf : (Update mgrCD "c").Work.find? (fun v => v.ID == "c") with
  | none => exact absurd hf (by decide)
  | some w => simp [h1 w hf]

/-! ### C9 -/

/-- C9 counterexample: after `OnStart` the manager is running, yet
`SetBackValidators` still replaces the pool and there is no error: the empty
pool becomes `[recE]`.  The claimed `InvalidState` rejection does not exist
in the code. -/
theorem C9_after_start_counterexample :
    (OnStart NewHealthMgr).healthTickSet = true ∧
    (OnStart NewHealthMgr).Back = [] ∧
    (SetBackValidators (OnStart NewHealthMgr) [recE]).Back = [recE] := by
  refine ⟨rfl, rfl, ?_⟩
  simp [SetBackValidators]

/-- C9 (amended): `SetBackValidators` performs no lifecycle check and cannot
fail: in every manager state — before or after start — it replaces the pool
by the given records re-sorted by validator address (a permutation of the
input, sorted under the `bytes.Compare` order) and changes nothing else. -/
theorem C9_setBack_unconditional (m : HealthMgr) (hh : List Health) :
    (SetBackValidators m hh).Back.Pairwise (fun a b => healthLe a b = true) ∧
    List.Perm (SetBackValidators m hh).Back hh ∧
    (SetBackValidators m hh).Work = m.Work ∧
    (SetBackValidators m hh).healthTickSet = m.healthTickSet := by
  refine ⟨?_, ?_, rfl, rfl⟩
  · exact List.sorted_mergeSort (fun a b c => healthLe_trans a b c)
      (fun a b => healthLe_total a b) hh
  · exact List.mergeSort_perm hh healthLe

/-! ### C10 -/

/-- C10: a Remote success outcome whose remove id is not in the active set
still promotes the first pool record matching the add id to `Used`: the
remove side and the add side of `switchResult` are applied independently. -/
theorem C10_unknown_remove_still_promotes (m : HealthMgr) (res : SwitchValidator)
    (a w : Health) (pre post : List Health)
    (hfrom : res.«from» = 1) (hadd : res.Add = some a) (hres : res.Resion = "")
    (hunk : ∀ v ∈ m.Work, v.ID ≠ res.Remove.ID)
    (hback : m.Back = pre ++ w :: post)
    (hpre : ∀ u ∈ pre, u.ID ≠ a.ID) (hw : w.ID = a.ID) :
    switchResult m res =
      some { m with Back := pre ++ { w with State := StateUsed } :: post } := by
  have hmap : m.Work.map
      (fun v => if v.ID = res.Remove.ID then { v with State := StateRemoved } else v) =
      m.Work :=
    list_map_self fun v hv => by rw [if_neg (hunk v hv)]
  simp only [switchResult, hfrom, hadd, hres, if_pos]
  rw [hmap, hback, setFirstUsed_decomp pre w post a.ID hpre hw]

theorem C10_unknown_remove_still_promotes_witness :
    switchResult mgrCD { Remove := recA, Add := some recD, Resion := "", «from» := 1 } =
      some { mgrCD with Back := [{ recD with State := StateUsed }] } :=
  C10_unknown_remove_still_promotes mgrCD _ recD recD [] [] rfl rfl rfl
    (by decide) rfl (by simp) rfl

end Heartbeats

namespace Heartbeats

/-! ### The backup picker (C6) -/

theorem pick_none_of_no_unused :
    ∀ back : List Health, (∀ v ∈ back, v.State ≠ StateUnused) →
      pickUnuseValidator back = (none, back)
  | [], _ => rfl
  | v :: rest, h => by
    have hv : v.State ≠ StateUnused := h v (by simp)
    have ih := pick_none_of_no_unused rest (fun x hx => h x (by simp [hx]))
    simp [pickUnuseValidator, if_neg hv, ih]

theorem pick_some_decomp :
    ∀ (pre : List Health) (w : Health) (post : List Health),
      (∀ u ∈ pre, u.State ≠ StateUnused) → w.State = StateUnused →
      pickUnuseValidator (pre ++ w :: post) =
        (some { w with State := StateSwitching },
          pre ++ { w with State := StateSwitching } :: post)
  | [], w, post => by
    intro _ hw
    simp [pickUnuseValidator, hw]
  | u :: pre, w, post => by
    intro hpre hw
    have hu := hpre u (by simp)
    have ih := pick_some_decomp pre w post (fun x hx => hpre x (by simp [hx])) hw
    simp [pickUnuseValidator, if_neg hu, ih]

theorem first_unused_split (back : List Health) :
    (∀ v ∈ back, v.State ≠ StateUnused) ∨
    ∃ pre w post, back = pre ++ w :: post ∧
      (∀ u ∈ pre, u.State ≠ StateUnused) ∧ w.State = StateUnused := by
  induction back with
  | nil => left; simp
  | cons v rest ih =>
    by_cases hv : v.State = StateUnused
    · right
      exact ⟨[], v, rest, by simp, by simp, hv⟩
    · rcases ih with h | ⟨pre, w, post, h1, h2, h3⟩
      · left
        intro x hx
        rcases List.mem_cons.1 hx with rfl | hx2
        · exact hv
        · exact h x hx2
      · right
        refine ⟨v :: pre, w, post, by simp [h1], ?_, h3⟩
        intro u hu
        rcases List.mem_cons.1 hu with rfl | hu2
        · exact hv
        · exact h2 u hu2

theorem picksN_eq :
    ∀ (n : Nat) (back : List Health),
      (back.filter (fun v => v.State == StateUnused)).length ≤ n →
      picksN back n =
        (back.filter (fun v => v.State == StateUnused)).map
          (fun v => { v with State := StateSwitching }) := by
  intro n
  induction n with
  | zero =>
    intro back h
    have hf : back.filter (fun v => v.State == StateUnused) = [] :=
      List.eq_nil_of_length_eq_zero (Nat.le_zero.1 h)
    simp [picksN, hf]
  | succ n ih =>
    intro back h
    rcases first_unused_split back with hnone | ⟨pre, w, post, h1, h2, h3⟩
    · have hp := pick_none_of_no_unused back hnone
      have hf : back.filter (fun v => v.State == StateUnused) = [] := by
        rw [List.filter_eq_nil_iff]
        intro a ha
        simp [hnone a ha]
      simp [picksN, hp, hf]
    · subst h1
      have hp := pick_some_decomp pre w post h2 h3
      have hfpre : pre.filter (fun v => v.State == StateUnused) = [] := by
        rw [List.filter_eq_nil_iff]
        intro a ha
        simp [h2 a ha]
      have hfback : (pre ++ w :: post).filter (fun v => v.State == StateUnused) =
          w :: post.filter (fun v => v.State == StateUnused) := by
        rw [List.filter_append, hfpre, List.nil_append, List.filter_cons]
        simp [h3]
      have hfback2 : (pre ++ { w with State := StateSwitching } :: post).filter
          (fun v => v.State == StateUnused) =
          post.filter (fun v => v.State == StateUnused) := by
        rw [List.filter_append, hfpre, List.nil_append, List.filter_cons]
        simp [StateSwitching, StateUnused]
      have hlen : ((pre ++ { w with State := StateSwitching } :: post).filter
          (fun v => v.State == StateUnused)).length ≤ n := by
        rw [hfback2]
        rw [hfback] at h
        simp only [List.length_cons] at h
        omega
      have ihb := ih _ hlen
      simp [picksN, hp, ihb, hfback, hfback2]

/-- C6: on an address-sorted pool (strictly, under `bytes.Compare`),
`pickUnuseValidator` returns `none` and leaves the pool alone when no
`Unused` record exists; otherwise it returns the first `Unused` record
marked `Switching` (updating the pool in place); consequently exhaustive
repeated picking returns exactly the `Unused` records, in pool order —
each exactly once — and therefore in strictly ascending address order. -/
theorem C6_picker (back : List Health)
    (hsorted : back.Pairwise (fun a b => bytesLt a.Val.Address b.Val.Address = true)) :
    ((∀ v ∈ back, v.State ≠ StateUnused) → pickUnuseValidator back = (none, back)) ∧
    (∀ (pre : List Health) (w : Health) (post : List Health),
        back = pre ++ w :: post → (∀ u ∈ pre, u.State ≠ StateUnused) →
        w.State = StateUnused →
        pickUnuseValidator back =
          (some { w with State := StateSwitching },
            pre ++ { w with State := StateSwitching } :: post)) ∧
    picksN back back.length =
      (back.filter (fun v => v.State == StateUnused)).map
        (fun v => { v with State := StateSwitching }) ∧
    (picksN back back.length).Pairwise
      (fun a b => bytesLt a.Val.Address b.Val.Address = true) := by
  refine ⟨fun h => pick_none_of_no_unused back h,
    fun pre w post h1 h2 h3 => by rw [h1]; exact pick_some_decomp pre w post h2 h3,
    picksN_eq _ _ (List.length_filter_le _ _), ?_⟩
  rw [picksN_eq _ _ (List.length_filter_le _ _), List.pairwise_map]
  exact ((hsorted.sublist (List.filter_sublist _)).imp fun h => h)

theorem C6_picker_witness :
    picksN [recD, recE, recF] 3 =
      ([recD, recE, recF].filter (fun v => v.State == StateUnused)).map
        (fun v => { v with State := StateSwitching }) ∧
    picksN [recD, recE, recF] 3 =
      [{ recE with State := StateSwitching }, { recF with State := StateSwitching }] :=
  ⟨(C6_picker [recD, recE, recF] (by decide)).2.2.1, by decide⟩

end Heartbeats

namespace Heartbeats

/-! ### Counting lemmas and the success outcome (C3) -/

theorem countState_append (s : Nat) (l1 l2 : List Health) :
    countState s (l1 ++ l2) = countState s l1 + countState s l2 := by
  simp [countState, List.filter_append]

theorem countState_cons (s : Nat) (v : Health) (l : List Health) :
    countState s (v :: l) = (if v.State = s then 1 else 0) + countState s l := by
  by_cases h : v.State = s <;> simp [countState, List.filter_cons, h, Nat.add_comm]

/-- C3 (amended): a successful Remote outcome sets the active record keyed by
the remove id to `Removed` and promotes the first pool record matching the
add id to `Used`, leaving every other record untouched.  Both affected
records are in `Switching` when the outcome arrives (the protocol moved them
out of `Used`/`Unused` at emission time), so over the union of active set
and pool the outcome loses two `Switching` records, gains one `Used` record
and one `Removed` record, and loses no `Used` record. -/
theorem C3_remoteSuccess (m : HealthMgr) (res : SwitchValidator) (a w wb : Health)
    (p1 p2 pre post : List Health)
    (hfrom : res.«from» = 1) (hadd : res.Add = some a) (hres : res.Resion = "")
    (hWork : m.Work = p1 ++ w :: p2) (hwid : w.ID = res.Remove.ID)
    (hwState : w.State = StateSwitching)
    (hothers : ∀ u ∈ p1 ++ p2, u.ID ≠ res.Remove.ID)
    (hBack : m.Back = pre ++ wb :: post) (hpre : ∀ u ∈ pre, u.ID ≠ a.ID)
    (hwbid : wb.ID = a.ID) (hwbState : wb.State = StateSwitching) :
    switchResult m res =
      some { m with Work := p1 ++ { w with State := StateRemoved } :: p2,
                    Back := pre ++ { wb with State := StateUsed } :: post } ∧
    countState StateUsed ((p1 ++ { w with State := StateRemoved } :: p2) ++
        (pre ++ { wb with State := StateUsed } :: post)) =
      countState StateUsed (m.Work ++ m.Back) + 1 ∧
    countState StateRemoved ((p1 ++ { w with State := StateRemoved } :: p2) ++
        (pre ++ { wb with State := StateUsed } :: post)) =
      countState StateRemoved (m.Work ++ m.Back) + 1 ∧
    countState StateSwitching ((p1 ++ { w with State := StateRemoved } :: p2) ++
        (pre ++ { wb with State := StateUsed } :: post)) + 2 =
      countState StateSwitching (m.Work ++ m.Back) ∧
    countState StateUnused ((p1 ++ { w with State := StateRemoved } :: p2) ++
        (pre ++ { wb with State := StateUsed } :: post)) =
      countState StateUnused (m.Work ++ m.Back) := by
  have hmap : m.Work.map
      (fun v => if v.ID = res.Remove.ID then { v with State := StateRemoved } else v) =
      p1 ++ { w with State := StateRemoved } :: p2 := by
    rw [hWork, List.map_append, List.map_cons, if_pos hwid]
    rw [list_map_self fun v hv => by
        rw [if_neg (hothers v (List.mem_append.2 (Or.inl hv)))]]
    rw [list_map_self fun v hv => by
        rw [if_neg (hothers v (List.mem_append.2 (Or.inr hv)))]]
  refine ⟨?_, ?_, ?_, ?_, ?_⟩
  · simp only [switchResult, hfrom, hadd, hres, if_pos]
    rw [hmap, hBack, setFirstUsed_decomp pre wb post a.ID hpre hwbid]
  all_goals
    rw [hWork, hBack]
    simp only [countState_append, countState_cons, hwState, hwbState]
    simp only [StateUnused, StateSwitching, StateUsed, StateRemoved]
    simp only [show (3 : Nat) ≠ 2 by omega, show (2 : Nat) = 2 by rfl, show (1 : Nat) ≠ 2 by omega,
      show (3 : Nat) = 3 by rfl, show (2 : Nat) ≠ 3 by omega, show (1 : Nat) ≠ 3 by omega,
      show (1 : Nat) ≠ 0 by omega, show (2 : Nat) ≠ 0 by omega, show (3 : Nat) ≠ 0 by omega,
      show (1 : Nat) = 1 by rfl, show (2 : Nat) ≠ 1 by omega, show (3 : Nat) ≠ 1 by omega,
      if_true, if_false]
    try omega

theorem C3_remoteSuccess_witness :
    switchResult mgrCD svOkCD =
      some { mgrCD with Work := [{ recC with State := StateRemoved }],
                        Back := [{ recD with State := StateUsed }] } :=
  (C3_remoteSuccess mgrCD svOkCD recD recC recD [] [] [] [] rfl rfl rfl rfl rfl rfl
    (by simp) rfl (by simp) rfl rfl).1

end Heartbeats

namespace Heartbeats

/-! ### The step-relation invariant (C5) -/

theorem emCount_append (E1 E2 : List SwitchValidator) (id : PeerID) :
    emCount (E1 ++ E2) id = emCount E1 id + emCount E2 id := by
  simp [emCount, List.filter_append]

theorem emCount_nil (id : PeerID) : emCount [] id = 0 := rfl

theorem workOne_cases (v : Health) (back : List Health) :
    ((workOne v back).2.2 = [] ∧ (workOne v back).1.State = v.State ∧
      (workOne v back).1.ID = v.ID) ∨
    (∃ sv, (workOne v back).2.2 = [sv] ∧ sv.Remove.ID = v.ID ∧
      sv.Remove.Tick > HealthOut ∧ sv.Remove.State = StateUsed ∧
      v.State = StateUsed ∧ (workOne v back).1.State = StateSwitching ∧
      (workOne v back).1.ID = v.ID) := by
  by_cases hs : v.State = StateUsed
  · by_cases hc : HealthOut < v.Tick + 1
    · right
      refine ⟨{ Remove := { v with Tick := v.Tick + 1 },
                Add := (pickUnuseValidator back).1, Resion := "Switch", «from» := 0 },
        ?_, rfl, hc, hs, hs, ?_, ?_⟩ <;>
        simp [workOne, checkSwitchValidator, hs, hc]
    · left
      refine ⟨?_, ?_, ?_⟩ <;> simp [workOne, checkSwitchValidator, hs, hc]
  · left
    refine ⟨?_, ?_, ?_⟩ <;> simp [workOne, checkSwitchValidator, hs]

theorem workAux_emOK : ∀ (ws back : List Health),
    ∀ sv ∈ (workAux ws back).2.2, sv.Remove.Tick > HealthOut ∧ sv.Remove.State = StateUsed
  | [], back => by simp [workAux]
  | v :: rest, back => by
    intro sv hsv
    have hw : (workAux (v :: rest) back).2.2 =
        (workOne v back).2.2 ++ (workAux rest (workOne v back).2.1).2.2 := rfl
    rw [hw] at hsv
    rcases List.mem_append.1 hsv with h | h
    · rcases workOne_cases v back with ⟨he, _, _⟩ | ⟨sv2, he, _, ht, hst, _, _, _⟩
      · rw [he] at h
        simp at h
      · rw [he] at h
        simp at h
        subst h
        exact ⟨ht, hst⟩
    · exact workAux_emOK rest _ sv h

theorem workAux_ids : ∀ (ws back : List Health),
    (workAux ws back).1.map Health.ID = ws.map Health.ID
  | [], back => by simp [workAux]
  | v :: rest, back => by
    have hw : (workAux (v :: rest) back).1 =
        (workOne v back).1 :: (workAux rest (workOne v back).2.1).1 := rfl
    rcases workOne_cases v back with ⟨_, _, hid⟩ | ⟨_, _, _, _, _, _, _, hid⟩ <;>
      rw [hw, List.map_cons, hid, workAux_ids rest _, List.map_cons]

theorem workAux_used_src : ∀ (ws back : List Health),
    ∀ v2 ∈ (workAux ws back).1, v2.State = StateUsed →
      ∃ v ∈ ws, v.ID = v2.ID ∧ v.State = StateUsed
  | [], back => by simp [workAux]
  | v :: rest, back => by
    intro v2 hv2 hUsed
    have hw : (workAux (v :: rest) back).1 =
        (workOne v back).1 :: (workAux rest (workOne v back).2.1).1 := rfl
    rw [hw] at hv2
    rcases List.mem_cons.1 hv2 with rfl | hv2m
    · rcases workOne_cases v back with ⟨_, hstate, hid⟩ | ⟨_, _, _, _, _, _, hstate, hid⟩
      · exact ⟨v, by simp, hid.symm, hstate.symm.trans hUsed⟩
      · exact absurd (hstate.symm.trans hUsed) (by decide)
    · obtain ⟨v3, hv3, hid3, hst3⟩ := workAux_used_src rest _ v2 hv2m hUsed
      exact ⟨v3, by simp [hv3], hid3, hst3⟩

theorem workAux_count : ∀ (ws back : List Health) (id : PeerID),
    (ws.map Health.ID).Nodup →
    emCount (workAux ws back).2.2 id ≤ 1 ∧
    (1 ≤ emCount (workAux ws back).2.2 id →
      (∀ v2 ∈ (workAux ws back).1, v2.ID = id → v2.State ≠ StateUsed) ∧
      ∃ v ∈ ws, v.ID = id ∧ v.State = StateUsed)
  | [], back, id, _ => by simp [workAux, emCount]
  | v :: rest, back, id, hnd => by
    rw [List.map_cons, List.nodup_cons] at hnd
    obtain ⟨hnotin, hndr⟩ := hnd
    have ih := workAux_count rest (workOne v back).2.1 id hndr
    have hw2 : (workAux (v :: rest) back).2.2 =
        (workOne v back).2.2 ++ (workAux rest (workOne v back).2.1).2.2 := rfl
    have hw1 : (workAux (v :: rest) back).1 =
        (workOne v back).1 :: (workAux rest (workOne v back).2.1).1 := rfl
    rw [hw2, emCount_append, hw1]
    rcases workOne_cases v back with ⟨he, hstate, hid⟩ |
      ⟨sv, he, hrid, ht, hrst, hvUsed, hstate, hid⟩
    · have hc1 : emCount (workOne v back).2.2 id = 0 := by
        rw [he, emCount_nil]
      rw [hc1]
      refine ⟨by simpa using ih.1, fun hge => ?_⟩
      have hge2 : 1 ≤ emCount (workAux rest (workOne v back).2.1).2.2 id := by omega
      obtain ⟨hall, v3, hv3, hid3, hst3⟩ := ih.2 hge2
      refine ⟨?_, v3, by simp [hv3], hid3, hst3⟩
      intro v2 hv2 hvid2
      rcases List.mem_cons.1 hv2 with rfl | hv2m
      · have : id ∈ rest.map Health.ID := List.mem_map.2 ⟨v3, hv3, hid3⟩
        rw [hid] at hvid2
        exact absurd (hvid2 ▸ this) hnotin
      · exact hall v2 hv2m hvid2
    · by_cases hidv : v.ID = id
      · have hc1 : emCount (workOne v back).2.2 id = 1 := by
          rw [he]
          simp [emCount, List.filter_cons, hrid, hidv]
        have hc2 : emCount (workAux rest (workOne v back).2.1).2.2 id = 0 := by
          by_contra hne
          have hge2 : 1 ≤ emCount (workAux rest (workOne v back).2.1).2.2 id :=
            Nat.one_le_iff_ne_zero.2 hne
          obtain ⟨_, v3, hv3, hid3, _⟩ := ih.2 hge2
          exact hnotin (hidv ▸ List.mem_map.2 ⟨v3, hv3, hid3⟩)
        rw [hc1, hc2]
        refine ⟨by omega, fun _ => ⟨?_, v, by simp, hidv, hvUsed⟩⟩
        intro v2 hv2 hvid2
        rcases List.mem_cons.1 hv2 with rfl | hv2m
        · rw [hstate]
          decide
        · intro hU
          obtain ⟨v3, hv3, hid3, _⟩ := workAux_used_src rest _ v2 hv2m hU
          exact hnotin (hidv ▸ List.mem_map.2 ⟨v3, hv3, hid3.trans hvid2⟩)
      · have hc1 : emCount (workOne v back).2.2 id = 0 := by
          rw [he]
          simp [emCount, List.filter_cons, hrid, hidv]
        rw [hc1]
        refine ⟨by simpa using ih.1, fun hge => ?_⟩
        have hge2 : 1 ≤ emCount (workAux rest (workOne v back).2.1).2.2 id := by omega
        obtain ⟨hall, v3, hv3, hid3, hst3⟩ := ih.2 hge2
        refine ⟨?_, v3, by simp [hv3], hid3, hst3⟩
        intro v2 hv2 hvid2
        rcases List.mem_cons.1 hv2 with rfl | hv2m
        · exact absurd (hid ▸ hvid2) hidv
        · exact hall v2 hv2m hvid2

end Heartbeats

namespace Heartbeats

theorem update_work_ids (m : HealthMgr) (id : PeerID) :
    (Update m id).Work.map Health.ID = m.Work.map Health.ID := by
  simp only [Update, List.map_map]
  refine List.map_congr_left fun v _ => ?_
  by_cases h : v.ID = id
  · simp [Function.comp, updFun_id_eq id v h]
  · simp [Function.comp, updFun_id_ne id v h]

theorem mem_update_work {m : HealthMgr} {id : PeerID} {v2 : Health}
    (h : v2 ∈ (Update m id).Work) :
    ∃ v ∈ m.Work, v2.ID = v.ID ∧ v2.State = v.State := by
  obtain ⟨v, hv, rfl⟩ := List.mem_map.1 h
  by_cases hid : v.ID = id
  · rw [updFun_id_eq id v hid]
    exact ⟨v, hv, rfl, rfl⟩
  · rw [updFun_id_ne id v hid]
    exact ⟨v, hv, rfl, rfl⟩

theorem remf_work_ids (l : List Health) (rid : PeerID) :
    (l.map (fun v => if v.ID = rid then { v with State := StateRemoved } else v)).map
        Health.ID = l.map Health.ID := by
  simp only [List.map_map]
  refine List.map_congr_left fun v _ => ?_
  by_cases h : v.ID = rid <;> simp [Function.comp, h]

theorem mem_remf_work {l : List Health} {rid : PeerID} {v2 : Health}
    (h : v2 ∈ l.map (fun v => if v.ID = rid then { v with State := StateRemoved } else v)) :
    ∃ v ∈ l, v2.ID = v.ID ∧ (v2.State = v.State ∨ v2.State = StateRemoved) := by
  obtain ⟨v, hv, rfl⟩ := List.mem_map.1 h
  by_cases hid : v.ID = rid
  · rw [if_pos hid]
    exact ⟨v, hv, rfl, Or.inr rfl⟩
  · rw [if_neg hid]
    exact ⟨v, hv, rfl, Or.inl rfl⟩

theorem switchResult_elim {m m2 : HealthMgr} {res : SwitchValidator}
    (h : switchResult m res = some m2) :
    m2 = m ∨ ∃ a, res.Add = some a ∧
      m2 = { m with
        Work := m.Work.map (fun v =>
          if v.ID = res.Remove.ID then { v with State := StateRemoved } else v),
        Back := setFirstUsed m.Back a.ID } := by
  unfold switchResult at h
  by_cases hf : res.«from» = 1
  · rw [if_pos hf] at h
    cases ha : res.Add with
    | none =>
      rw [ha] at h
      simp at h
    | some a =>
      rw [ha] at h
      dsimp only at h
      by_cases hr : res.Resion = ""
      · rw [if_pos hr] at h
        right
        exact ⟨a, rfl, (Option.some.inj h).symm⟩
      · rw [if_neg hr] at h
        left
        exact (Option.some.inj h).symm
  · rw [if_neg hf] at h
    left
    exact (Option.some.inj h).symm

theorem step_preserves {m m2 : HealthMgr} {E E2 : List SwitchValidator}
    (hinv : EmInv m E) (hstep : Step m E2 m2) :
    EmInv m2 (E ++ E2) ∧
    ∀ sv ∈ E2, sv.Remove.Tick > HealthOut ∧ sv.Remove.State = StateUsed := by
  obtain ⟨hnd, hcnt⟩ := hinv
  cases hstep with
  | tick =>
    refine ⟨⟨?_, ?_⟩, workAux_emOK m.Work m.Back⟩
    · have hids : ((work m).1.Work.map Health.ID) = m.Work.map Health.ID :=
        workAux_ids m.Work m.Back
      rw [hids]
      exact hnd
    · intro id
      have ihw := workAux_count m.Work m.Back id hnd
      rw [emCount_append]
      rcases Nat.eq_zero_or_pos (emCount (work m).2 id) with hz | hpos
      · refine ⟨by rw [hz]; simpa using (hcnt id).1, fun hge => ?_⟩
        have h1 : 1 ≤ emCount E id := by omega
        intro v2 hv2 hid2 hU
        obtain ⟨v3, hv3, hid3, hU3⟩ := workAux_used_src m.Work m.Back v2 hv2 hU
        exact (hcnt id).2 h1 v3 hv3 (hid3.trans hid2) hU3
      · obtain ⟨hallnew, v3, hv3, hid3, hU3⟩ := ihw.2 hpos
        have hcE : emCount E id = 0 := by
          by_contra hne
          exact (hcnt id).2 (Nat.one_le_iff_ne_zero.2 hne) v3 hv3 hid3 hU3
        refine ⟨by rw [hcE]; simpa using ihw.1, fun _ => hallnew⟩
  | update id2 =>
    rw [List.append_nil]
    refine ⟨⟨?_, ?_⟩, by simp⟩
    · rw [update_work_ids]
      exact hnd
    · intro id
      refine ⟨(hcnt id).1, fun hge v2 hv2 hid2 hU => ?_⟩
      obtain ⟨v, hv, hid3, hst3⟩ := mem_update_work hv2
      exact (hcnt id).2 hge v hv (hid3.symm.trans hid2) (hst3 ▸ hU)
  | result res m2 heq =>
    rw [List.append_nil]
    rcases switchResult_elim heq with rfl | ⟨a, _, rfl⟩
    · exact ⟨⟨hnd, hcnt⟩, by simp⟩
    · refine ⟨⟨?_, ?_⟩, by simp⟩
      · rw [show ({ m with
            Work := m.Work.map (fun v =>
              if v.ID = res.Remove.ID then { v with State := StateRemoved } else v),
            Back := setFirstUsed m.Back a.ID } : HealthMgr).Work =
            m.Work.map (fun v =>
              if v.ID = res.Remove.ID then { v with State := StateRemoved } else v) from rfl,
          remf_work_ids]
        exact hnd
      · intro id
        refine ⟨(hcnt id).1, fun hge v2 hv2 hid2 hU => ?_⟩
        obtain ⟨v, hv, hid3, hst3⟩ := mem_remf_work hv2
        rcases hst3 with hst3 | hst3
        · exact (hcnt id).2 hge v hv (hid3.symm.trans hid2) (hst3 ▸ hU)
        · rw [hst3] at hU
          exact absurd hU (by decide)

theorem reaches_inv {m0 m : HealthMgr} {E : List SwitchValidator}
    (hnd : (m0.Work.map Health.ID).Nodup) (hr : Reaches m0 E m) :
    EmInv m E ∧ ∀ sv ∈ E, sv.Remove.Tick > HealthOut ∧ sv.Remove.State = StateUsed := by
  induction hr with
  | refl =>
    refine ⟨⟨hnd, fun id => ⟨by simp [emCount_nil], fun h => by simp [emCount_nil] at h⟩⟩,
      by simp⟩
  | step hr2 hstep ih =>
    obtain ⟨hinv, hok⟩ := ih
    obtain ⟨hinv2, hok2⟩ := step_preserves hinv hstep
    refine ⟨hinv2, fun sv hsv => ?_⟩
    rcases List.mem_append.1 hsv with h | h
    · exact hok sv h
    · exact hok2 sv h

/-- C5: in every execution of the tick/update/switch-outcome step relation
started from distinct active ids, every emitted `SwitchValidator` names as
`Remove` a record that was `Used` with tick strictly above `HealthOut = 600`
at emission time, and no id is ever named by more than one emission — hence
at most one pending switch request per active record ever exists. -/
theorem C5_threshold_and_single_request (m0 m : HealthMgr) (E : List SwitchValidator)
    (hnd : (m0.Work.map Health.ID).Nodup) (hr : Reaches m0 E m) :
    (∀ sv ∈ E, sv.Remove.Tick > HealthOut ∧ sv.Remove.State = StateUsed) ∧
    ∀ id, emCount E id ≤ 1 := by
  obtain ⟨⟨_, hcnt⟩, hok⟩ := reaches_inv hnd hr
  exact ⟨hok, fun id => (hcnt id).1⟩

theorem C5_threshold_and_single_request_witness :
    emCount ([] ++ (work mgrA).2) "a" ≤ 1 :=
  (C5_threshold_and_single_request mgrA (work mgrA).1 ([] ++ (work mgrA).2) (by decide)
    (Reaches.step (Reaches.refl mgrA) (Step.tick mgrA))).2 "a"

end Heartbeats

namespace Heartbeats

/-! ### Canonical heartbeat serialization (C8) -/

theorem append_sep_inj (c : Nat) :
    ∀ (xs ys r1 r2 : List Nat), c ∉ xs → c ∉ ys →
      xs ++ c :: r1 = ys ++ c :: r2 → xs = ys ∧ r1 = r2
  | [], [], r1, r2 => by simp
  | [], y :: ys, r1, r2 => by
    intro _ hy h
    simp only [List.nil_append, List.cons_append, List.cons.injEq] at h
    exact absurd (List.mem_cons.2 (Or.inl h.1)) hy
  | x :: xs, [], r1, r2 => by
    intro hx _ h
    simp only [List.nil_append, List.cons_append, List.cons.injEq] at h
    exact absurd (List.mem_cons.2 (Or.inl h.1.symm)) hx
  | x :: xs, y :: ys, r1, r2 => by
    intro hx hy h
    simp only [List.cons_append, List.cons.injEq] at h
    obtain ⟨hxy, h2⟩ := h
    have ih := append_sep_inj c xs ys r1 r2
      (fun hc => hx (List.mem_cons.2 (Or.inr hc)))
      (fun hc => hy (List.mem_cons.2 (Or.inr hc))) h2
    exact ⟨by rw [hxy, ih.1], ih.2⟩

theorem esc_quote_inj :
    ∀ (a b r1 r2 : List Nat),
      escJSON a ++ 34 :: r1 = escJSON b ++ 34 :: r2 → a = b ∧ r1 = r2
  | [], [], r1, r2 => by simp [escJSON]
  | [], y :: ys, r1, r2 => by
    intro h
    exfalso
    simp only [escJSON, List.nil_append] at h
    by_cases hy1 : y = 34
    · rw [if_pos hy1] at h
      simp only [List.cons_append, List.cons.injEq] at h
      omega
    · rw [if_neg hy1] at h
      by_cases hy2 : y = 92
      · rw [if_pos hy2] at h
        simp only [List.cons_append, List.cons.injEq] at h
        omega
      · rw [if_neg hy2] at h
        simp only [List.cons_append, List.cons.injEq] at h
        omega
  | x :: xs, [], r1, r2 => by
    intro h
    exfalso
    simp only [escJSON, List.nil_append] at h
    by_cases hx1 : x = 34
    · rw [if_pos hx1] at h
      simp only [List.cons_append, List.cons.injEq] at h
      omega
    · rw [if_neg hx1] at h
      by_cases hx2 : x = 92
      · rw [if_pos hx2] at h
        simp only [List.cons_append, List.cons.injEq] at h
        omega
      · rw [if_neg hx2] at h
        simp only [List.cons_append, List.cons.injEq] at h
        omega
  | x :: xs, y :: ys, r1, r2 => by
    intro h
    simp only [escJSON] at h
    by_cases hx1 : x = 34
    · rw [if_pos hx1] at h
      by_cases hy1 : y = 34
      · rw [if_pos hy1] at h
        simp only [List.cons_append, List.cons.injEq] at h
        have ih := esc_quote_inj xs ys r1 r2 h.2.2
        exact ⟨by rw [hx1, hy1, ih.1], ih.2⟩
      · rw [if_neg hy1] at h
        by_cases hy2 : y = 92
        · rw [if_pos hy2] at h
          simp only [List.cons_append, List.cons.injEq] at h
          omega
        · rw [if_neg hy2] at h
          simp only [List.cons_append, List.cons.injEq] at h
          omega
    · rw [if_neg hx1] at h
      by_cases hx2 : x = 92
      · rw [if_pos hx2] at h
        by_cases hy1 : y = 34
        · rw [if_pos hy1] at h
          simp only [List.cons_append, List.cons.injEq] at h
          omega
        · rw [if_neg hy1] at h
          by_cases hy2 : y = 92
          · rw [if_pos hy2] at h
            simp only [List.cons_append, List.cons.injEq] at h
            have ih := esc_quote_inj xs ys r1 r2 h.2.2
            exact ⟨by rw [hx2, hy2, ih.1], ih.2⟩
          · rw [if_neg hy2] at h
            simp only [List.cons_append, List.cons.injEq] at h
            omega
      · rw [if_neg hx2] at h
        by_cases hy1 : y = 34
        · rw [if_pos hy1] at h
          simp only [List.cons_append, List.cons.injEq] at h
          omega
        · rw [if_neg hy1] at h
          by_cases hy2 : y = 92
          · rw [if_pos hy2] at h
            simp only [List.cons_append, List.cons.injEq] at h
            omega
          · rw [if_neg hy2] at h
            simp only [List.cons_append, List.cons.injEq] at h
            have ih := esc_quote_inj xs ys r1 r2 h.2
            exact ⟨by rw [h.1, ih.1], ih.2⟩

theorem decimal_mem (n : Nat) : ∀ x ∈ decimal n, 48 ≤ x ∧ x ≤ 57 := by
  intro x hx
  unfold decimal at hx
  by_cases h : n = 0
  · rw [if_pos h] at hx
    simp at hx
    omega
  · rw [if_neg h] at hx
    simp only [List.mem_map, List.mem_reverse] at hx
    obtain ⟨d, hd, rfl⟩ := hx
    have := Nat.digits_lt_base (by norm_num) hd
    omega

theorem decimal_not_mem_44 (n : Nat) : 44 ∉ decimal n :=
  fun hm => by have := decimal_mem n 44 hm; omega

theorem decimal_not_mem_125 (n : Nat) : 125 ∉ decimal n :=
  fun hm => by have := decimal_mem n 125 hm; omega

theorem decimal_inj : ∀ {n m : Nat}, decimal n = decimal m → n = m := by
  have key : ∀ m : Nat, m ≠ 0 →
      [48] = (Nat.digits 10 m).reverse.map (fun d => 48 + d) → False := by
    intro m hm h
    have hlen : ((Nat.digits 10 m).reverse.map (fun d => 48 + d)).length = 1 := by
      rw [← h]
      rfl
    simp only [List.length_map, List.length_reverse] at hlen
    obtain ⟨d, hd⟩ := List.length_eq_one.1 hlen
    rw [hd] at h
    simp only [List.reverse_cons, List.reverse_nil, List.nil_append, List.map_cons,
      List.map_nil, List.cons.injEq] at h
    have hd0 : d = 0 := by omega
    have := Nat.ofDigits_digits 10 m
    rw [hd, hd0] at this
    simp [Nat.ofDigits] at this
    exact hm this.symm
  intro n m h
  unfold decimal at h
  by_cases hn : n = 0 <;> by_cases hm : m = 0
  · rw [hn, hm]
  · rw [if_pos hn, if_neg hm] at h
    exact absurd h (fun hh => key m hm hh)
  · rw [if_neg hn, if_pos hm] at h
    exact absurd h.symm (fun hh => key n hn hh)
  · rw [if_neg hn, if_neg hm] at h
    have hrev : (Nat.digits 10 n).reverse = (Nat.digits 10 m).reverse :=
      (List.map_injective_iff.2 (fun a b hab => by omega)) h
    have hdig : Nat.digits 10 n = Nat.digits 10 m := by
      have := congrArg List.reverse hrev
      simpa using this
    calc n = Nat.ofDigits 10 (Nat.digits 10 n) := (Nat.ofDigits_digits 10 n).symm
      _ = Nat.ofDigits 10 (Nat.digits 10 m) := by rw [hdig]
      _ = m := Nat.ofDigits_digits 10 m

theorem hexDigit_inj {a b : Nat} (h : hexDigit a = hexDigit b) : a = b := by
  unfold hexDigit at h
  split_ifs at h <;> omega

theorem hexDigit_ne_34 (n : Nat) : hexDigit n ≠ 34 := by
  unfold hexDigit
  split_ifs <;> omega

theorem hexOf_not_mem_34 : ∀ l : List Nat, 34 ∉ hexOf l
  | [] => by simp [hexOf]
  | b :: bs => by
    intro h
    rcases List.mem_append.1 h with h1 | h2
    · rcases List.mem_cons.1 h1 with he | h1b
      · exact hexDigit_ne_34 _ he.symm
      · rcases List.mem_cons.1 h1b with he | h0
        · exact hexDigit_ne_34 _ he.symm
        · simp at h0
    · exact hexOf_not_mem_34 bs h2

theorem hexOf_inj : ∀ (a b : List Nat), hexOf a = hexOf b → a = b
  | [], [] => fun _ => rfl
  | [], _ :: _ => by
    intro h
    exact absurd h (by simp [hexOf, hexByte])
  | _ :: _, [] => by
    intro h
    exact absurd h (by simp [hexOf, hexByte])
  | x :: xs, y :: ys => by
    intro h
    simp only [hexOf, hexByte, List.cons_append, List.nil_append, List.cons.injEq] at h
    obtain ⟨hd1, hd2, h3⟩ := h
    have hx := hexDigit_inj hd1
    have hy := hexDigit_inj hd2
    have hxy : x = y := by
      have e1 := Nat.div_add_mod x 16
      have e2 := Nat.div_add_mod y 16
      omega
    rw [hxy, hexOf_inj xs ys h3]

theorem canonicalJSON_inj {c1 c2 : List Nat} {h1 h2 : Heartbeat}
    (heq : canonicalHeartbeatJSON c1 h1 = canonicalHeartbeatJSON c2 h2) :
    c1 = c2 ∧ h1.Height = h2.Height ∧ h1.Round = h2.Round ∧
    h1.Sequence = h2.Sequence ∧ h1.ValidatorAddress = h2.ValidatorAddress ∧
    h1.ValidatorIndex = h2.ValidatorIndex := by
  unfold canonicalHeartbeatJSON at heq
  have e0 := List.append_cancel_left heq
  rw [show ∀ Y : List Nat, skA1 ++ Y = 34 :: (skA1.tail ++ Y) from fun _ => rfl,
      show ∀ Y : List Nat, skA1 ++ Y = 34 :: (skA1.tail ++ Y) from fun _ => rfl] at e0
  obtain ⟨hc, e1⟩ := esc_quote_inj _ _ _ _ e0
  have e2 := List.append_cancel_left e1
  rw [show ∀ Y : List Nat, skA2 ++ Y = 44 :: (skA2.tail ++ Y) from fun _ => rfl] at e2
  obtain ⟨hH, e3⟩ := append_sep_inj 44 _ _ _ _
    (decimal_not_mem_44 _) (decimal_not_mem_44 _) e2
  have e4 := List.append_cancel_left e3
  rw [show ∀ Y : List Nat, skA3 ++ Y = 44 :: (skA3.tail ++ Y) from fun _ => rfl] at e4
  obtain ⟨hR, e5⟩ := append_sep_inj 44 _ _ _ _
    (decimal_not_mem_44 _) (decimal_not_mem_44 _) e4
  have e6 := List.append_cancel_left e5
  rw [show ∀ Y : List Nat, skA4 ++ Y = 44 :: (skA4.tail ++ Y) from fun _ => rfl] at e6
  obtain ⟨hS, e7⟩ := append_sep_inj 44 _ _ _ _
    (decimal_not_mem_44 _) (decimal_not_mem_44 _) e6
  have e8 := List.append_cancel_left e7
  rw [show ∀ Y : List Nat, skA5 ++ Y = 34 :: (skA5.tail ++ Y) from fun _ => rfl] at e8
  obtain ⟨hA, e9⟩ := append_sep_inj 34 _ _ _ _
    (hexOf_not_mem_34 _) (hexOf_not_mem_34 _) e8
  have e10 := List.append_cancel_left e9
  rw [show skA6 = 125 :: ([] : List Nat) from rfl] at e10
  obtain ⟨hI, _⟩ := append_sep_inj 125 _ _ _ _
    (decimal_not_mem_125 _) (decimal_not_mem_125 _) e10
  exact ⟨hc, decimal_inj hH, decimal_inj hR, decimal_inj hS,
    hexOf_inj _ _ hA, decimal_inj hI⟩

/-- C8: `SignBytes` depends on exactly the canonical content: two heartbeats
produce the same bytes for chain ids `c1`, `c2` precisely when the chain ids
and all canonical fields (height, round, sequence, validator address,
validator index) agree — so equal canonical fields give byte-identical
output whatever the signature fields are, and any difference in a canonical
field changes the output.  The second conjunct states the signature
independence explicitly. -/
theorem C8_signBytes_canonical (c1 c2 : List Nat) (hb1 hb2 : Heartbeat) :
    (SignBytes hb1 c1 = SignBytes hb2 c2 ↔
      (c1 = c2 ∧ hb1.Height = hb2.Height ∧ hb1.Round = hb2.Round ∧
       hb1.Sequence = hb2.Sequence ∧ hb1.ValidatorAddress = hb2.ValidatorAddress ∧
       hb1.ValidatorIndex = hb2.ValidatorIndex)) ∧
    ∀ s : List Nat, SignBytes { hb1 with Signature := s } c1 = SignBytes hb1 c1 := by
  refine ⟨⟨fun h => canonicalJSON_inj h, ?_⟩, fun s => rfl⟩
  rintro ⟨rfl, hH, hR, hS, hA, hI⟩
  simp [SignBytes, RlpHashModel, canonicalHeartbeatJSON, hH, hR, hS, hA, hI]

end Heartbeats
